import Mathlib

/-!
Shallow embedding of the `tr_readable` Rust crate (`src/lib.rs`), a composable
little-endian binary-decoding toolkit, together with proofs of its specified
properties.

Modelling conventions:
* A byte stream (`std::io::Read` over in-memory data) is a `List Nat` of bytes;
  reading consumes a prefix.  A decoder for values of type `α` (the `Readable`
  trait's `read` method for a concrete type) is a function
  `List Nat → Option (α × List Nat)`: `none` models an `Err` result
  (I/O failure), `some (a, rest)` models `Ok(a)` with `rest` the unread suffix.
* Machine integers are `Nat`/`Int`; `u64` wraparound in the mesh loop's
  subtraction is modelled explicitly with `% 2 ^ 64`.
* `f32`/`f64` values are represented by their IEEE-754 bit patterns as `Nat`:
  Rust's `read_f32::<LE>` reads a little-endian `u32` and transmutes the bits
  (`f32::from_bits`), a bijection between bit patterns and float values, so the
  byte-level behaviour is fully captured by the bit pattern.
-/

/-- Decoders in the embedding: consume a prefix of a byte stream, produce a
value and the remaining stream, or fail (an I/O error in the Rust code). -/
def Decoder (α : Type) : Type := List Nat → Option (α × List Nat)

/-- Model of `Read::read_exact` on an in-memory stream: yield exactly `n` bytes
and the remaining stream, or fail if fewer than `n` bytes are available. -/
def readBytesEx (n : Nat) (s : List Nat) : Option (List Nat × List Nat) :=
  if n ≤ s.length then some (s.take n, s.drop n) else none

/-- Value of a little-endian byte list (least significant byte first). -/
def fromLE : List Nat → Nat
  | [] => 0
  | b :: bs => b + 256 * fromLE bs

/-- Little-endian encoding of `n` on `w` bytes. -/
def toLE : Nat → Nat → List Nat
  | 0, _ => []
  | w + 1, n => n % 256 :: toLE w (n / 256)

/-- Embedding of the `impl_readable_prim_le!` unsigned readers
(`read_u16::<LE>` etc.) at byte width `w`: read `w` bytes, interpret
little-endian.  `w = 1` is the plain `read_u8`. -/
def readUIntLE (w : Nat) (s : List Nat) : Option (Nat × List Nat) :=
  (readBytesEx w s).bind fun p => some (fromLE p.1, p.2)

/-- Two's-complement reinterpretation of an unsigned `w`-byte value, as done by
`read_i16::<LE>` etc. -/
def toSigned (w : Nat) (u : Nat) : Int :=
  if u < 256 ^ w / 2 then (u : Int) else (u : Int) - (256 ^ w : Nat)

/-- Unsigned `w`-byte representation of a signed value (two's complement). -/
def toUnsigned (w : Nat) (i : Int) : Nat :=
  (i % (256 ^ w : Nat)).toNat

/-- Embedding of the signed readers (`read_i8`, `read_i16::<LE>`, ...). -/
def readIntLE (w : Nat) (s : List Nat) : Option (Int × List Nat) :=
  (readUIntLE w s).bind fun p => some (toSigned w p.1, p.2)

/-- The ten primitive `Readable` impls generated by `impl_readable_prim!` /
`impl_readable_prim_le!` in `lib.rs`. -/
inductive Prim : Type
  | u8 | i8 | u16 | i16 | u32 | i32 | u64 | i64 | f32 | f64
deriving DecidableEq

/-- Byte width consumed by each primitive reader. -/
def primSize : Prim → Nat
  | .u8 => 1 | .i8 => 1
  | .u16 => 2 | .i16 => 2
  | .u32 => 4 | .i32 => 4
  | .u64 => 8 | .i64 => 8
  | .f32 => 4 | .f64 => 8

/-- Values produced by the primitive readers: unsigned integers, signed
integers, and floats represented by their IEEE-754 bit patterns. -/
inductive PrimVal : Type
  | uval : Nat → PrimVal
  | ival : Int → PrimVal
  | fbits : Nat → PrimVal
deriving DecidableEq

/-- Embedding of the primitive `Readable::read` impls: each reads exactly its
width in little-endian order (`read_u8`, `read_i8`, `read_u16::<LE>`, ...;
`read_f32::<LE>` / `read_f64::<LE>` produce the float whose bit pattern is the
little-endian integer read). -/
def decodePrim : Prim → List Nat → Option (PrimVal × List Nat)
  | .u8, s => (readUIntLE 1 s).map fun p => (.uval p.1, p.2)
  | .i8, s => (readIntLE 1 s).map fun p => (.ival p.1, p.2)
  | .u16, s => (readUIntLE 2 s).map fun p => (.uval p.1, p.2)
  | .i16, s => (readIntLE 2 s).map fun p => (.ival p.1, p.2)
  | .u32, s => (readUIntLE 4 s).map fun p => (.uval p.1, p.2)
  | .i32, s => (readIntLE 4 s).map fun p => (.ival p.1, p.2)
  | .u64, s => (readUIntLE 8 s).map fun p => (.uval p.1, p.2)
  | .i64, s => (readIntLE 8 s).map fun p => (.ival p.1, p.2)
  | .f32, s => (readUIntLE 4 s).map fun p => (.fbits p.1, p.2)
  | .f64, s => (readUIntLE 8 s).map fun p => (.fbits p.1, p.2)

/-- A value representable by primitive `p`: unsigned/bit-pattern values fit in
`p`'s width, signed values lie in the two's-complement range. -/
def validPrimVal : Prim → PrimVal → Prop
  | p, .uval u => (p = .u8 ∨ p = .u16 ∨ p = .u32 ∨ p = .u64) ∧ u < 256 ^ primSize p
  | p, .ival i => (p = .i8 ∨ p = .i16 ∨ p = .i32 ∨ p = .i64) ∧
      -((256 ^ primSize p / 2 : Nat) : Int) ≤ i ∧ i < ((256 ^ primSize p / 2 : Nat) : Int)
  | p, .fbits u => (p = .f32 ∨ p = .f64) ∧ u < 256 ^ primSize p

/-- The wire encoding of a primitive value: its little-endian byte string (the
inverse of the reader, used to state round-trip properties). -/
def encodePrim (p : Prim) (v : PrimVal) : List Nat :=
  match v with
  | .uval u => toLE (primSize p) u
  | .ival i => toLE (primSize p) (toUnsigned (primSize p) i)
  | .fbits u => toLE (primSize p) u

theorem toLE_length (w n : Nat) : (toLE w n).length = w := by
  induction w generalizing n with
  | zero => rfl
  | succ w ih => simp [toLE, ih]

theorem fromLE_toLE (w n : Nat) (h : n < 256 ^ w) : fromLE (toLE w n) = n := by
  induction w generalizing n with
  | zero =>
    simp only [pow_zero, Nat.lt_one_iff] at h
    simp [toLE, fromLE, h]
  | succ w ih =>
    have hd : n / 256 < 256 ^ w := by
      rw [Nat.div_lt_iff_lt_mul (by norm_num)]
      calc n < 256 ^ (w + 1) := h
        _ = 256 ^ w * 256 := by ring
    simp only [toLE, fromLE, ih _ hd]
    omega

theorem readBytesEx_append (bs rest : List Nat) :
    readBytesEx bs.length (bs ++ rest) = some (bs, rest) := by
  simp [readBytesEx]

theorem readUIntLE_short (w : Nat) (s : List Nat) (h : s.length < w) :
    readUIntLE w s = none := by
  simp [readUIntLE, readBytesEx, Nat.not_le.mpr h]

theorem readUIntLE_toLE (w n : Nat) (h : n < 256 ^ w) (rest : List Nat) :
    readUIntLE w (toLE w n ++ rest) = some (n, rest) := by
  have hfl := fromLE_toLE w n h
  have hl := toLE_length w n
  simp only [readUIntLE]
  obtain ⟨bs, hbs⟩ : ∃ bs, toLE w n = bs := ⟨_, rfl⟩
  rw [hbs] at hfl hl ⊢
  rw [← hl, readBytesEx_append]
  simp [hfl]

theorem toSigned_toUnsigned (w : Nat) (hw : 1 ≤ w) (i : Int)
    (hlo : -((256 ^ w / 2 : Nat) : Int) ≤ i) (hhi : i < ((256 ^ w / 2 : Nat) : Int)) :
    toSigned w (toUnsigned w i) = i := by
  have hdvd : (2 : Nat) ∣ 256 ^ w := dvd_pow (by norm_num) (by omega)
  have h2 : 256 ^ w / 2 * 2 = 256 ^ w := Nat.div_mul_cancel hdvd
  have hmod : i % ((256 ^ w : Nat) : Int) = if 0 ≤ i then i else i + ((256 ^ w : Nat) : Int) := by
    rcases le_or_lt 0 i with hpos | hneg
    · rw [if_pos hpos]
      exact Int.emod_eq_of_lt hpos (by omega)
    · rw [if_neg (not_le.mpr hneg)]
      have hself : (i + ((256 ^ w : Nat) : Int) * 1) % ((256 ^ w : Nat) : Int)
          = i % ((256 ^ w : Nat) : Int) :=
        Int.add_mul_emod_self_left i ((256 ^ w : Nat) : Int) 1
      rw [mul_one] at hself
      have hr : (i + ((256 ^ w : Nat) : Int)) % ((256 ^ w : Nat) : Int)
          = i + ((256 ^ w : Nat) : Int) := Int.emod_eq_of_lt (by omega) (by omega)
      omega
  unfold toSigned toUnsigned
  rw [hmod]
  rcases le_or_lt 0 i with hpos | hneg
  · rw [if_pos hpos, if_pos (by omega)]
    omega
  · rw [if_neg (not_le.mpr hneg), if_neg (by omega)]
    omega


/-- Embedding of the `u8` `Readable` impl as a bare byte decoder (used by
`read_meshes` and `get_zlib` to buffer regions via `read_vec::<_, u8>`). -/
def readU8 : Decoder Nat := readUIntLE 1

/-- Embedding of `read_vec`: decode exactly `len` elements sequentially,
failing as a whole if any element decode fails (the `?` operator is modelled
by `Option.bind`). -/
def read_vec {α : Type} (dec : Decoder α) : Nat → Decoder (List α)
  | 0, s => some ([], s)
  | len + 1, s =>
    (dec s).bind fun p =>
      (read_vec dec len p.2).bind fun q => some (p.1 :: q.1, q.2)

/-- Embedding of `read_list`: the `Len` type parameter is represented by the
byte width `w` of the length prefix (`u16` → 2, `u32` → 4); read the
little-endian count, then that many elements. -/
def read_list {α : Type} (w : Nat) (dec : Decoder α) : Decoder (List α) := fun s =>
  (readUIntLE w s).bind fun p => read_vec dec p.1 p.2

/-- Embedding of `read_list_2d`: read two `u16` lengths, then `len1` rows of
`len2` elements each. -/
def read_list_2d {α : Type} (dec : Decoder α) : Decoder (List (List α)) := fun s =>
  (readUIntLE 2 s).bind fun p =>
    (readUIntLE 2 p.2).bind fun q =>
      read_vec (read_vec dec q.1) p.1 q.2

/-- Model of the `Vec<T> → [T; N]` conversion (`try_into`) used by the array
impls: succeeds exactly when the vector's length is `N`. -/
def try_into_array {α : Type} (n : Nat) (l : List α) : Option (List α) :=
  if l.length = n then some l else none

/-- Embedding of `impl Readable for [T; N]`.  The outer `Option` models the
`unwrap` after `try_into().ok()`: `none` means that `unwrap` panicked; the
inner `Option` models the `Result` as elsewhere. -/
def read_array {α : Type} (dec : Decoder α) (n : Nat) (s : List Nat) :
    Option (Option (List α × List Nat)) :=
  match read_vec dec n s with
  | none => some none
  | some p =>
    match try_into_array n p.1 with
    | none => none
    | some arr => some (some (arr, p.2))

/-- Embedding of `impl Readable for Box<[T; N]>`: identical to the `[T; N]`
impl except that the vector is first turned into a boxed slice (which changes
neither contents nor length) before the fallible conversion and `unwrap`. -/
def read_boxed_array {α : Type} (dec : Decoder α) (n : Nat) (s : List Nat) :
    Option (Option (List α × List Nat)) :=
  match read_vec dec n s with
  | none => some none
  | some p =>
    match try_into_array n p.1 with
    | none => none
    | some arr => some (some (arr, p.2))

theorem read_vec_length {α : Type} (dec : Decoder α) (n : Nat) (s rest : List Nat)
    (vs : List α) (h : read_vec dec n s = some (vs, rest)) : vs.length = n := by
  induction n generalizing s vs with
  | zero =>
    simp only [read_vec, Option.some.injEq, Prod.mk.injEq] at h
    simp [← h.1]
  | succ n ih =>
    simp only [read_vec] at h
    cases hd : dec s with
    | none => rw [hd] at h; simp at h
    | some p =>
      rw [hd, Option.some_bind] at h
      cases hr : read_vec dec n p.2 with
      | none => rw [hr] at h; simp at h
      | some q =>
        obtain ⟨q1, q2⟩ := q
        rw [hr, Option.some_bind] at h
        simp only [Option.some.injEq, Prod.mk.injEq] at h
        have := ih p.2 q1 (h.2 ▸ hr)
        simp [← h.1, this]

theorem read_vec_add {α : Type} (dec : Decoder α) (m n : Nat) (s : List Nat) :
    read_vec dec (m + n) s =
      (read_vec dec m s).bind fun p =>
        (read_vec dec n p.2).bind fun q => some (p.1 ++ q.1, q.2) := by
  induction m generalizing s with
  | zero =>
    simp only [Nat.zero_add, read_vec, Option.some_bind]
    cases read_vec dec n s with
    | none => rfl
    | some q => rfl
  | succ m ih =>
    have hms : m + 1 + n = (m + n) + 1 := by omega
    rw [hms]
    simp only [read_vec]
    cases dec s with
    | none => rfl
    | some p =>
      simp only [Option.some_bind, ih p.2]
      cases read_vec dec m p.2 with
      | none => rfl
      | some q =>
        simp only [Option.some_bind]
        cases read_vec dec n q.2 with
        | none => rfl
        | some r => simp

theorem read_vec_u8_eq (n : Nat) (s : List Nat) :
    read_vec readU8 n s = readBytesEx n s := by
  induction n generalizing s with
  | zero => simp [read_vec, readBytesEx]
  | succ n ih =>
    cases s with
    | nil => simp [read_vec, readU8, readUIntLE, readBytesEx]
    | cons b bs =>
      have hb : readU8 (b :: bs) = some (b, bs) := by
        simp [readU8, readUIntLE, readBytesEx, fromLE]
      simp only [read_vec, hb, Option.some_bind, ih bs, readBytesEx]
      by_cases h : n ≤ bs.length
      · simp [h]
      · simp [h]

theorem toUnsigned_lt (w : Nat) (i : Int) : toUnsigned w i < 256 ^ w := by
  unfold toUnsigned
  have hpos : (0 : Int) < ((256 ^ w : Nat) : Int) := by positivity
  have h1 := Int.emod_nonneg i (ne_of_gt hpos)
  have h2 := Int.emod_lt_of_pos i hpos
  omega

theorem readIntLE_encode (w : Nat) (hw : 1 ≤ w) (i : Int)
    (hlo : -((256 ^ w / 2 : Nat) : Int) ≤ i) (hhi : i < ((256 ^ w / 2 : Nat) : Int))
    (rest : List Nat) :
    readIntLE w (toLE w (toUnsigned w i) ++ rest) = some (i, rest) := by
  unfold readIntLE
  rw [readUIntLE_toLE w _ (toUnsigned_lt w i) rest]
  simp [toSigned_toUnsigned w hw i hlo hhi]

/-- Claim C6: for every fixed-width primitive type (8/16/32/64-bit signed or
unsigned integer, 32/64-bit float, the latter identified with their IEEE-754
bit patterns) and every byte stream beginning with exactly that type's
little-endian encoding of a representable value `v`, the primitive decode
returns `v` and consumes exactly `sizeof(T)` bytes; on any stream shorter
than `sizeof(T)` it fails with an error, returning no partial value. -/
theorem prim_decode_correct (p : Prim) (v : PrimVal) (hv : validPrimVal p v)
    (rest : List Nat) (s : List Nat) (hs : s.length < primSize p) :
    decodePrim p (encodePrim p v ++ rest) = some (v, rest) ∧
    (encodePrim p v).length = primSize p ∧
    decodePrim p s = none := by
  refine ⟨?_, by cases v <;> exact toLE_length _ _, ?_⟩
  · cases p <;> cases v <;>
      first
      | (obtain ⟨-, hu⟩ := hv
         simp only [primSize] at hu
         simp only [decodePrim, encodePrim, primSize]
         rw [readUIntLE_toLE _ _ hu]
         rfl)
      | (obtain ⟨-, hlo, hhi⟩ := hv
         simp only [primSize] at hlo hhi
         simp only [decodePrim, encodePrim, primSize]
         rw [readIntLE_encode _ (by norm_num) _ hlo hhi]
         rfl)
      | simp [validPrimVal] at hv
  · cases p <;>
      simp only [primSize] at hs <;>
      simp [decodePrim, readIntLE, readUIntLE_short _ _ hs]

/-- Witness for `prim_decode_correct` at `i16`, value `-2`, on the stream
`[0xfe, 0xff, 9]`. -/
theorem prim_decode_correct_witness :
    decodePrim .i16 (encodePrim .i16 (.ival (-2)) ++ [9]) = some (.ival (-2), [9]) ∧
    (encodePrim .i16 (.ival (-2))).length = primSize .i16 ∧
    decodePrim .i16 [5] = none :=
  prim_decode_correct .i16 (.ival (-2))
    ⟨Or.inr (Or.inl rfl), by norm_num [primSize], by norm_num [primSize]⟩ [9] [5] (by decide)

/-- Claim C8: the length-prefixed list decode with a width-`w` prefix (`w = 2` bytes
for `u16`, `w = 4` for `u32`) reads the little-endian count `n` and then
behaves exactly as decoding `n` elements in sequence from the remaining
stream; in particular a zero count yields the empty collection and consumes
nothing beyond the `w`-byte prefix. -/
theorem read_list_spec {α : Type} (w : Nat) (hw : w = 2 ∨ w = 4) (dec : Decoder α)
    (n : Nat) (hn : n < 256 ^ w) (body : List Nat) :
    read_list w dec (toLE w n ++ body) = read_vec dec n body ∧
    read_list w dec (toLE w 0 ++ body) = some ([], body) := by
  have hz : (0 : Nat) < 256 ^ w := by positivity
  constructor
  · simp only [read_list, readUIntLE_toLE w n hn body, Option.some_bind]
  · simp only [read_list, readUIntLE_toLE w 0 hz body, Option.some_bind, read_vec]

/-- Witness for `read_list_spec` with a `u16` prefix, count 1, `u8` elements. -/
theorem read_list_spec_witness :
    read_list 2 readU8 (toLE 2 1 ++ [7]) = read_vec readU8 1 [7] ∧
    read_list 2 readU8 (toLE 2 0 ++ [7]) = some ([], [7]) :=
  read_list_spec 2 (Or.inl rfl) readU8 1 (by norm_num) [7]

/-- Claim C9: element failure aborts the whole collection decode.  If the first `i`
elements decode successfully, leaving stream `s'`, and the next element decode
fails on `s'`, then decoding any `n > i` elements from the original stream
fails outright — the caller observes an error, never a partial collection of
the `i` decoded elements; the same holds through the length-prefixed list
whose count field encodes `n`. -/
theorem decode_atomicity {α : Type} (dec : Decoder α) (w n i : Nat) (hi : i < n)
    (hn : n < 256 ^ w) (s s' : List Nat) (vs : List α)
    (hpre : read_vec dec i s = some (vs, s'))
    (hfail : dec s' = none) :
    read_vec dec n s = none ∧ read_list w dec (toLE w n ++ s) = none := by
  have hvec : read_vec dec n s = none := by
    induction i generalizing n s vs with
    | zero =>
      simp only [read_vec, Option.some.injEq, Prod.mk.injEq] at hpre
      obtain ⟨n', rfl⟩ : ∃ n', n = n' + 1 := ⟨n - 1, by omega⟩
      rw [← hpre.2] at hfail
      simp [read_vec, hfail]
    | succ i ih =>
      simp only [read_vec] at hpre
      cases hd : dec s with
      | none => rw [hd] at hpre; simp at hpre
      | some p =>
        rw [hd, Option.some_bind] at hpre
        cases hr : read_vec dec i p.2 with
        | none => rw [hr] at hpre; simp at hpre
        | some q =>
          obtain ⟨q1, q2⟩ := q
          rw [hr, Option.some_bind] at hpre
          simp only [Option.some.injEq, Prod.mk.injEq] at hpre
          obtain ⟨n', rfl⟩ : ∃ n', n = n' + 1 := ⟨n - 1, by omega⟩
          have := ih n' (by omega) (by omega) p.2 q1 (hpre.2 ▸ hr)
          simp [read_vec, hd, this]
  exact ⟨hvec, by simp only [read_list, readUIntLE_toLE w n hn s, Option.some_bind, hvec]⟩

/-- Witness for `decode_atomicity`: a `u16`-prefixed list declaring three
`u8` elements over a 2-byte body fails as a whole. -/
theorem decode_atomicity_witness :
    read_vec readU8 3 [5, 6] = none ∧ read_list 2 readU8 (toLE 2 3 ++ [5, 6]) = none :=
  decode_atomicity readU8 2 3 2 (by norm_num) (by norm_num) [5, 6] [] [5, 6]
    (by decide) (by decide)

/-- Claim C10: the fixed-size array decodes (`[T; N]` and `Box<[T; N]>`) never
panic: `read_vec` returns a vector of length exactly `N` whenever it
succeeds, so the `try_into` conversion always succeeds and the following
`unwrap` is unreachable (the outer `Option` is never `none`). -/
theorem array_decode_no_panic {α : Type} (dec : Decoder α) (n : Nat) (s : List Nat) :
    (read_array dec n s).isSome = true ∧ (read_boxed_array dec n s).isSome = true := by
  have h : ∀ r : Option (List α × List Nat), read_vec dec n s = r →
      (match r with
        | none => (some none : Option (Option (List α × List Nat)))
        | some p =>
          match try_into_array n p.1 with
          | none => none
          | some arr => some (some (arr, p.2))).isSome = true := by
    intro r hr
    cases r with
    | none => simp
    | some p =>
      have hlen : p.1.length = n := read_vec_length dec n s p.2 p.1 (by rw [hr])
      simp [try_into_array, hlen]
  exact ⟨h _ rfl, h _ rfl⟩

theorem read_vec_nested {α : Type} (dec : Decoder α) (l1 l2 : Nat) (body rest : List Nat)
    (grid : List (List α))
    (h : read_vec (read_vec dec l2) l1 body = some (grid, rest)) :
    grid.length = l1 ∧ (∀ row ∈ grid, row.length = l2) ∧
    read_vec dec (l1 * l2) body = some (grid.flatten, rest) := by
  induction l1 generalizing body grid with
  | zero =>
    simp only [read_vec, Option.some.injEq, Prod.mk.injEq] at h
    obtain ⟨hg, hb⟩ := h
    subst hb
    simp [← hg, read_vec]
  | succ l1 ih =>
    simp only [read_vec] at h
    cases hrow : read_vec dec l2 body with
    | none => rw [hrow] at h; simp at h
    | some p =>
      rw [hrow, Option.some_bind] at h
      cases hrest : read_vec (read_vec dec l2) l1 p.2 with
      | none => rw [hrest] at h; simp at h
      | some q =>
        obtain ⟨q1, q2⟩ := q
        rw [hrest, Option.some_bind] at h
        simp only [Option.some.injEq, Prod.mk.injEq] at h
        obtain ⟨hg, hr⟩ := h
        subst hr
        obtain ⟨ih1, ih2, ih3⟩ := ih p.2 q1 hrest
        have hp : p.1.length = l2 := read_vec_length dec l2 body p.2 p.1 (by rw [hrow])
        refine ⟨by simp [← hg, ih1], ?_, ?_⟩
        · intro row hrowmem
          rw [← hg] at hrowmem
          rcases List.mem_cons.mp hrowmem with hh | hh
          · rw [hh]; exact hp
          · exact ih2 row hh
        · have hmul : (l1 + 1) * l2 = l2 + l1 * l2 := by ring
          rw [hmul, read_vec_add dec l2 (l1 * l2) body, hrow, Option.some_bind,
            ih3, Option.some_bind, ← hg]
          simp

/-- Claim C7: the 2D grid decode reads two 16-bit little-endian length fields, the
outer count `l1` first and the inner count `l2` second, and on success
produces exactly `l1` inner collections of exactly `l2` elements each (a
strictly rectangular result); the elements are assigned in row-major order:
flattening the grid gives exactly the sequential decode of `l1 * l2`
elements from the stream after the two length fields. -/
theorem read_list_2d_spec {α : Type} (dec : Decoder α) (l1 l2 : Nat)
    (h1 : l1 < 256 ^ 2) (h2 : l2 < 256 ^ 2) (body rest : List Nat) (grid : List (List α))
    (h : read_list_2d dec (toLE 2 l1 ++ (toLE 2 l2 ++ body)) = some (grid, rest)) :
    grid.length = l1 ∧ (∀ row ∈ grid, row.length = l2) ∧
    read_vec dec (l1 * l2) body = some (grid.flatten, rest) := by
  simp only [read_list_2d, readUIntLE_toLE 2 l1 h1, Option.some_bind,
    readUIntLE_toLE 2 l2 h2] at h
  exact read_vec_nested dec l1 l2 body rest grid h

/-- Witness for `read_list_2d_spec`: a 2×1 grid of `u8` elements. -/
theorem read_list_2d_spec_witness :
    ([[5], [6]] : List (List Nat)).length = 2 ∧
    (∀ row ∈ ([[5], [6]] : List (List Nat)), row.length = 1) ∧
    read_vec readU8 (2 * 1) [5, 6] = some (([[5], [6]] : List (List Nat)).flatten, []) :=
  read_list_2d_spec readU8 2 1 (by norm_num) (by norm_num) [5, 6] [] [[5], [6]] (by decide)

theorem readUIntLE_append (w : Nat) (bs rest : List Nat) (h : bs.length = w) :
    readUIntLE w (bs ++ rest) = some (fromLE bs, rest) := by
  subst h
  unfold readUIntLE
  rw [readBytesEx_append]
  rfl

theorem readUIntLE_inv (w : Nat) (s : List Nat) (v : Nat) (rest : List Nat)
    (h : readUIntLE w s = some (v, rest)) :
    w ≤ s.length ∧ v = fromLE (s.take w) ∧ rest = s.drop w := by
  unfold readUIntLE readBytesEx at h
  by_cases hle : w ≤ s.length
  · rw [if_pos hle, Option.some_bind] at h
    simp only [Option.some.injEq, Prod.mk.injEq] at h
    exact ⟨hle, h.1.symm, h.2.symm⟩
  · rw [if_neg hle] at h
    simp at h

theorem read_vec_u8_inv (n : Nat) (s bytes rest : List Nat)
    (h : read_vec readU8 n s = some (bytes, rest)) :
    n ≤ s.length ∧ bytes = s.take n ∧ rest = s.drop n := by
  rw [read_vec_u8_eq] at h
  unfold readBytesEx at h
  by_cases hle : n ≤ s.length
  · rw [if_pos hle] at h
    simp only [Option.some.injEq, Prod.mk.injEq] at h
    exact ⟨hle, h.1.symm, h.2.symm⟩
  · rw [if_neg hle] at h
    simp at h

/-- Result of the record loop and of `read_meshes`: `ok` models `Ok`, `err` a
propagated `Err`, and `hang` non-termination of the Rust `loop` (the embedding
is fuel-indexed and returns `hang` when the fuel runs out). -/
inductive MeshResult (α : Type) : Type
  | ok : α → MeshResult α
  | err : MeshResult α
  | hang : MeshResult α
deriving DecidableEq

/-- Wrapping 64-bit subtraction: the value of `num_bytes - pos1` when computed
on `u64` operands with release-mode wraparound semantics (defined for
`b < 2 ^ 64`, which holds at every use). -/
def wrapSub (a b : Nat) : Nat := (a + 2 ^ 64 - b) % 2 ^ 64

/-- One fuel-indexed unfolding of the `loop` in `read_meshes`, operating on
the buffered region with an explicit cursor position.  A decode at position
`pos` sees exactly the region bytes from `pos` on (a `Cursor` read past the
end yields no bytes, so `region.drop pos` is `[]` there); the number of bytes
it consumed is the drop in remaining length, so `pos2` is the cursor position
after the decode, and `pos2 - pos1` is exact (no wrap: `pos2 ≥ pos1`).  The
loop guard computes the wrapping `u64` difference `num_bytes - pos1` and
stops exactly when it is zero. -/
def meshLoop {α : Type} (dec : Decoder α) (region : List Nat) :
    Nat → Nat → List α → MeshResult (List α)
  | 0, _, _ => .hang
  | fuel + 1, pos, acc =>
    if wrapSub region.length pos = 0 then .ok acc
    else
      match dec (region.drop pos) with
      | none => .err
      | some p =>
        let consumed := (region.drop pos).length - p.2.length
        let pos2 := pos + consumed
        meshLoop dec region fuel (if (pos2 - pos) % 4 ≠ 0 then pos2 + 2 else pos2)
          (acc ++ [p.1])

/-- Embedding of `read_meshes`: read a `u32` (`read_len`), multiply by 2 to
get the region byte length, buffer exactly that many bytes from the outer
stream (`read_vec::<_, u8>`), then run the record loop over the buffered
region from cursor position 0. -/
def read_meshes {α : Type} (dec : Decoder α) (fuel : Nat) (s : List Nat) :
    MeshResult (List α × List Nat) :=
  match readUIntLE 4 s with
  | none => .err
  | some p =>
    match read_vec readU8 (p.1 * 2) p.2 with
    | none => .err
    | some q =>
      match meshLoop dec q.1 fuel 0 [] with
      | .ok vs => .ok (vs, q.2)
      | .err => .err
      | .hang => .hang

/-- Embedding of `get_zlib`: read and discard the uncompressed-length `u32`,
read the compressed-length `u32`, buffer exactly that many bytes.  The
returned `Decoder::new(Cursor::new(bytes))` — a lazy zlib decompressor from
an external crate — is modelled by the byte buffer handed to it. -/
def get_zlib (s : List Nat) : Option (List Nat × List Nat) :=
  (readUIntLE 4 s).bind fun p =>
    (readUIntLE 4 p.2).bind fun q =>
      (read_vec readU8 q.1 q.2).bind fun r => some (r.1, r.2)

theorem wrapSub_eq_zero_iff (a b : Nat) (ha : a < 2 ^ 64) (hb : b < 2 ^ 64) :
    wrapSub a b = 0 ↔ a = b := by
  unfold wrapSub
  have h : (2 : Nat) ^ 64 = 18446744073709551616 := by norm_num
  rw [h] at ha hb ⊢
  omega

/-- Claim C2: after each successful record decode in the mesh loop, with `consumed`
the number of bytes the decode advanced the in-region cursor, the cursor is
advanced by exactly 2 additional bytes before the next iteration when
`consumed % 4 ≠ 0`, and is not adjusted when `consumed % 4 = 0`. -/
theorem mesh_step_alignment {α : Type} (dec : Decoder α) (region : List Nat)
    (fuel pos : Nat) (acc : List α) (a : α) (rest : List Nat)
    (hne : wrapSub region.length pos ≠ 0)
    (hdec : dec (region.drop pos) = some (a, rest)) :
    meshLoop dec region (fuel + 1) pos acc =
      meshLoop dec region fuel
        (pos + ((region.drop pos).length - rest.length) +
          if ((region.drop pos).length - rest.length) % 4 = 0 then 0 else 2)
        (acc ++ [a]) := by
  rw [meshLoop, if_neg hne, hdec]
  simp only [Nat.add_sub_cancel_left]
  by_cases hmod : (region.length - pos - rest.length) % 4 = 0
  · simp [hmod]
  · simp [hmod]

/-- Witness for `mesh_step_alignment`: a 2-byte record decoded at offset 0 of
a 4-byte region advances the cursor to 2 and then 2 further (2 % 4 ≠ 0). -/
theorem mesh_step_alignment_witness :
    meshLoop (read_vec readU8 2) [1, 2, 3, 4] (5 + 1) 0 [] =
      meshLoop (read_vec readU8 2) [1, 2, 3, 4] 5
        (0 + ((([1, 2, 3, 4] : List Nat).drop 0).length - ([3, 4] : List Nat).length) +
          if ((([1, 2, 3, 4] : List Nat).drop 0).length - ([3, 4] : List Nat).length) % 4 = 0
          then 0 else 2)
        ([] ++ [[1, 2]]) :=
  mesh_step_alignment (read_vec readU8 2) [1, 2, 3, 4] 5 0 [] [1, 2] [3, 4]
    (by decide) (by decide)

/-- Claim C3: the mesh loop's stop test is an exact-equality boundary check.  With
region length and cursor in `u64` range, the loop returns the accumulated
records exactly when the cursor equals the region length `B`; for any other
cursor value — strictly short of `B` with a nonzero remainder, or even past
`B` after an overshooting alignment correction — it proceeds to decode the
next record, and that decode reads only from the buffered region (its input
is a suffix of the region, so nothing past `B` is ever decoded) and may fail
with an error on the remaining bytes. -/
theorem mesh_loop_boundary {α : Type} (dec : Decoder α) (region : List Nat)
    (fuel pos : Nat) (acc : List α)
    (hreg : region.length < 2 ^ 64) (hpos : pos < 2 ^ 64) :
    region.drop pos <:+ region ∧
    meshLoop dec region (fuel + 1) pos acc =
      if pos = region.length then .ok acc
      else
        match dec (region.drop pos) with
        | none => .err
        | some p =>
          meshLoop dec region fuel
            (pos + ((region.drop pos).length - p.2.length) +
              if ((region.drop pos).length - p.2.length) % 4 = 0 then 0 else 2)
            (acc ++ [p.1]) := by
  refine ⟨⟨region.take pos, List.take_append_drop pos region⟩, ?_⟩
  rw [meshLoop]
  by_cases heq : pos = region.length
  · rw [if_pos ((wrapSub_eq_zero_iff _ _ hreg hpos).mpr heq.symm), if_pos heq]
  · rw [if_neg (fun hc => heq ((wrapSub_eq_zero_iff _ _ hreg hpos).mp hc).symm), if_neg heq]
    cases hd : dec (region.drop pos) with
    | none => rfl
    | some p =>
      simp only [Nat.add_sub_cancel_left, List.length_drop]
      by_cases hmod : (region.length - pos - p.2.length) % 4 = 0
      · simp [hmod]
      · simp [hmod]

/-- Witness for `mesh_loop_boundary` at cursor 1 inside a 2-byte region. -/
theorem mesh_loop_boundary_witness :
    ([3, 4] : List Nat).drop 1 <:+ [3, 4] ∧
    meshLoop (read_vec readU8 1) [3, 4] (1 + 1) 1 [[9]] =
      if 1 = ([3, 4] : List Nat).length then .ok [[9]]
      else
        match read_vec readU8 1 (([3, 4] : List Nat).drop 1) with
        | none => .err
        | some p =>
          meshLoop (read_vec readU8 1) [3, 4] 1
            (1 + ((([3, 4] : List Nat).drop 1).length - p.2.length) +
              if ((([3, 4] : List Nat).drop 1).length - p.2.length) % 4 = 0 then 0 else 2)
            ([[9]] ++ [p.1]) :=
  mesh_loop_boundary (read_vec readU8 1) [3, 4] 1 1 [[9]] (by norm_num) (by norm_num)

/-- Claim C4: on input with half-length field 4 (region = 8 bytes) whose region
holds one record of 6 bytes followed by 2 padding bytes, `read_meshes`
succeeds with exactly one record: the record decode consumes 6 bytes,
6 % 4 = 2 ≠ 0 so the cursor advances 2 further to offset 8, and the loop's
`8 - 8 == 0` check terminates it with a single-record collection. -/
theorem read_meshes_one_record :
    read_meshes (read_vec readU8 6) 3 ([4, 0, 0, 0] ++ [10, 11, 12, 13, 14, 15, 0, 0]) =
      .ok ([[10, 11, 12, 13, 14, 15]], []) := by
  decide

/-- Claim C1: `read_meshes` first reads a 32-bit little-endian field whose stored
value multiplied by 2 is the byte length `B` of the packed region, then
buffers exactly `B` bytes into an isolated in-memory region before decoding
any record: on success, exactly `4 + B` bytes were consumed from the outer
stream, the record loop ran over exactly the `B` buffered bytes, and the
outer-stream bytes beyond `B` are untouched — replacing them by an arbitrary
list `t` leaves the decoded records unchanged and returns `t` as the
leftover stream. -/
theorem read_meshes_framing {α : Type} (dec : Decoder α) (fuel : Nat)
    (s t : List Nat) (vs : List α) (rest : List Nat)
    (h : read_meshes dec fuel s = .ok (vs, rest)) :
    4 + fromLE (s.take 4) * 2 ≤ s.length ∧
    rest = s.drop (4 + fromLE (s.take 4) * 2) ∧
    meshLoop dec ((s.drop 4).take (fromLE (s.take 4) * 2)) fuel 0 [] = .ok vs ∧
    read_meshes dec fuel (s.take (4 + fromLE (s.take 4) * 2) ++ t) = .ok (vs, t) := by
  unfold read_meshes at h
  split at h
  · simp at h
  · rename_i p h4
    split at h
    · simp at h
    · rename_i q hb
      split at h
      · rename_i vs' hm
        simp only [MeshResult.ok.injEq, Prod.mk.injEq] at h
        obtain ⟨hvs, hrest⟩ := h
        subst hvs
        subst hrest
        obtain ⟨h4len, h4val, h4rest⟩ := readUIntLE_inv 4 s p.1 p.2 h4
        obtain ⟨hblen, hbval, hbrest⟩ := read_vec_u8_inv (p.1 * 2) p.2 q.1 q.2 hb
        rw [h4rest, List.length_drop] at hblen
        rw [h4val] at hblen hbval hbrest
        rw [h4rest] at hbval hbrest
        have hq1 : q.1 = (s.drop 4).take (fromLE (s.take 4) * 2) := hbval
        refine ⟨by omega, ?_, ?_, ?_⟩
        · rw [hbrest, List.drop_drop]
        · rw [← hq1]; exact hm
        · have hlen4 : (s.take 4).length = 4 := by rw [List.length_take]; omega
          have hrlen : q.1.length = fromLE (s.take 4) * 2 := by
            rw [hq1, List.length_take, List.length_drop]
            omega
          have hsplit : s.take (4 + fromLE (s.take 4) * 2) = s.take 4 ++ q.1 := by
            rw [List.take_add, hq1]
          have hread4 : readUIntLE 4 (s.take 4 ++ (q.1 ++ t)) =
              some (fromLE (s.take 4), q.1 ++ t) :=
            readUIntLE_append 4 (s.take 4) (q.1 ++ t) hlen4
          have hreadv : read_vec readU8 (fromLE (s.take 4) * 2) (q.1 ++ t) = some (q.1, t) := by
            rw [read_vec_u8_eq, ← hrlen, readBytesEx_append]
          rw [hsplit, List.append_assoc]
          unfold read_meshes
          simp only [hread4, hreadv, hm]
      · simp at h
      · simp at h

/-- Witness for `read_meshes_framing`: half-length 2 (region 4 bytes), one
2-byte record plus 2 padding bytes, trailing byte replaced by `[42]`. -/
theorem read_meshes_framing_witness :
    4 + fromLE (([2, 0, 0, 0, 7, 8, 9, 10, 99] : List Nat).take 4) * 2 ≤
      ([2, 0, 0, 0, 7, 8, 9, 10, 99] : List Nat).length ∧
    [99] = ([2, 0, 0, 0, 7, 8, 9, 10, 99] : List Nat).drop
      (4 + fromLE (([2, 0, 0, 0, 7, 8, 9, 10, 99] : List Nat).take 4) * 2) ∧
    meshLoop (read_vec readU8 2)
      ((([2, 0, 0, 0, 7, 8, 9, 10, 99] : List Nat).drop 4).take
        (fromLE (([2, 0, 0, 0, 7, 8, 9, 10, 99] : List Nat).take 4) * 2)) 4 0 [] =
      .ok [[7, 8]] ∧
    read_meshes (read_vec readU8 2) 4
      (([2, 0, 0, 0, 7, 8, 9, 10, 99] : List Nat).take
        (4 + fromLE (([2, 0, 0, 0, 7, 8, 9, 10, 99] : List Nat).take 4) * 2) ++ [42]) =
      .ok ([[7, 8]], [42]) :=
  read_meshes_framing (read_vec readU8 2) 4 [2, 0, 0, 0, 7, 8, 9, 10, 99] [42]
    [[7, 8]] [99] (by decide)

/-- Claim C5: `get_zlib` reads a 32-bit little-endian uncompressed-length field
that is not used for any validation — replacing the first four bytes of the
stream by an arbitrary four-byte string `u` leaves the result unchanged —
then a 32-bit little-endian compressed-length field `C`, then buffers exactly
`C` further bytes and returns the streaming decompressor over exactly those
`C` bytes; whenever it returns successfully it has consumed exactly `8 + C`
bytes from the outer stream. -/
theorem get_zlib_spec (s bytes rest u : List Nat)
    (h : get_zlib s = some (bytes, rest)) (hu : u.length = 4) :
    bytes.length = fromLE ((s.drop 4).take 4) ∧
    8 + bytes.length ≤ s.length ∧
    bytes = (s.drop 8).take (fromLE ((s.drop 4).take 4)) ∧
    rest = s.drop (8 + bytes.length) ∧
    get_zlib (u ++ s.drop 4) = some (bytes, rest) := by
  unfold get_zlib at h
  cases h4 : readUIntLE 4 s with
  | none => rw [h4] at h; simp at h
  | some p =>
    rw [h4, Option.some_bind] at h
    obtain ⟨h4len, h4val, h4rest⟩ := readUIntLE_inv 4 s p.1 p.2 h4
    cases h8 : readUIntLE 4 p.2 with
    | none => rw [h8] at h; simp at h
    | some q =>
      rw [h8, Option.some_bind] at h
      obtain ⟨h8len, h8val, h8rest⟩ := readUIntLE_inv 4 p.2 q.1 q.2 h8
      rw [h4rest] at h8len h8val h8rest h8
      cases hb : read_vec readU8 q.1 q.2 with
      | none => rw [hb] at h; simp at h
      | some r =>
        rw [hb, Option.some_bind] at h
        simp only [Option.some.injEq, Prod.mk.injEq] at h
        obtain ⟨hbytes, hrest⟩ := h
        obtain ⟨hblen, hbval, hbrest⟩ := read_vec_u8_inv q.1 q.2 r.1 r.2 hb
        have hdd : (s.drop 4).drop 4 = s.drop 8 := by rw [List.drop_drop]
        rw [h8rest, hdd] at hblen hbval hbrest
        rw [h8val] at hblen hbval hbrest
        rw [List.length_drop] at h8len hblen
        have hlen : bytes.length = fromLE ((s.drop 4).take 4) := by
          rw [← hbytes, hbval, List.length_take, List.length_drop]
          omega
        refine ⟨hlen, by omega, ?_, ?_, ?_⟩
        · rw [← hbytes, hbval]
        · rw [← hrest, hbrest, List.drop_drop, hlen]
        · unfold get_zlib
          simp only [readUIntLE_append 4 u (s.drop 4) hu, Option.some_bind, h8,
            Option.some_bind, hb, Option.some_bind, hbytes, hrest]

/-- Witness for `get_zlib_spec`: an arbitrary uncompressed-length field,
compressed length 2, two payload bytes and one trailing byte. -/
theorem get_zlib_spec_witness :
    ([55, 66] : List Nat).length =
      fromLE ((([9, 9, 9, 9, 2, 0, 0, 0, 55, 66, 77] : List Nat).drop 4).take 4) ∧
    8 + ([55, 66] : List Nat).length ≤ ([9, 9, 9, 9, 2, 0, 0, 0, 55, 66, 77] : List Nat).length ∧
    ([55, 66] : List Nat) = (([9, 9, 9, 9, 2, 0, 0, 0, 55, 66, 77] : List Nat).drop 8).take
      (fromLE ((([9, 9, 9, 9, 2, 0, 0, 0, 55, 66, 77] : List Nat).drop 4).take 4)) ∧
    ([77] : List Nat) = ([9, 9, 9, 9, 2, 0, 0, 0, 55, 66, 77] : List Nat).drop
      (8 + ([55, 66] : List Nat).length) ∧
    get_zlib ([1, 2, 3, 4] ++ ([9, 9, 9, 9, 2, 0, 0, 0, 55, 66, 77] : List Nat).drop 4) =
      some ([55, 66], [77]) :=
  get_zlib_spec [9, 9, 9, 9, 2, 0, 0, 0, 55, 66, 77] [55, 66] [77] [1, 2, 3, 4]
    (by decide) (by decide)
